import Mathlib

/-!
Verification of the numeric utility core of the mcmc-rs repository
(`src/utils.rs`): the moment estimators `mean` and `sample_variance`,
the chain flattener `flatten`, and the chain splitter `split_chains`.

## Modelling choices

Rust `f64` values are modelled by the type `F`: an exact-significand
idealization of IEEE-754 binary64 with the special values plus and minus
infinity and NaN, but with exact (rational) arithmetic on finite values,
no rounding, no overflow and no signed zero.  All claims checked here
concern control flow (which inputs fail, which succeed), the exact shape
of the output sequences, and the IEEE special-value behaviour of exact
operations such as division by zero -- none of which depend on rounding;
on those observations the idealization and binary64 agree.

The `anyhow` string errors of the source are modelled by the enum
`UtilsError`, one constructor per distinct message:
  * `emptyInput`    for the message used by `mean` (empty array),
  * `emptyChainSet` for the first failure of `split_chains`,
  * `noDraws`       for the second failure of `split_chains`.
-/

/-- Idealized IEEE-754 binary64 value: an exact finite rational, a signed
infinity (`true` = positive), or NaN. -/
inductive F where
  | fin : ℚ → F
  | inf : Bool → F
  | nan : F
deriving DecidableEq, Repr

namespace F

/-- Negation, per IEEE-754 (flips the sign of an infinity, preserves NaN). -/
def neg : F → F
  | fin a => fin (-a)
  | inf s => inf (!s)
  | nan => nan

/-- Addition, per IEEE-754: NaN propagates, opposite infinities give NaN,
an infinity absorbs any finite value, finite values add exactly. -/
def add : F → F → F
  | nan, _ => nan
  | _, nan => nan
  | fin a, fin b => fin (a + b)
  | fin _, inf s => inf s
  | inf s, fin _ => inf s
  | inf s, inf t => if s = t then inf s else nan

/-- Subtraction, per IEEE-754: `a - b = a + (-b)`. -/
def sub (a b : F) : F := add a (neg b)

/-- Multiplication, per IEEE-754: NaN propagates, zero times infinity is
NaN, otherwise infinities follow the sign rule, finite values multiply
exactly. -/
def mul : F → F → F
  | nan, _ => nan
  | _, nan => nan
  | fin a, fin b => fin (a * b)
  | fin a, inf s => if a = 0 then nan else inf ((decide (0 < a)) == s)
  | inf s, fin b => if b = 0 then nan else inf ((decide (0 < b)) == s)
  | inf s, inf t => inf (s == t)

/-- Division, per IEEE-754 (divisor zero behaves as positive zero, there
being no signed zero in the model): NaN propagates, `0 / 0` is NaN, a
nonzero finite value divided by zero is a signed infinity, a finite value
divided by an infinity is zero, an infinity divided by a finite value is
a signed infinity, infinity over infinity is NaN; finite values with a
nonzero divisor divide exactly. -/
def div : F → F → F
  | nan, _ => nan
  | _, nan => nan
  | fin a, fin b =>
      if b = 0 then (if a = 0 then nan else inf (decide (0 < a)))
      else fin (a / b)
  | fin _, inf _ => fin 0
  | inf s, fin b => inf ((decide (0 ≤ b)) == s)
  | inf _, inf _ => nan

/-- Squaring: `x.powi(2)` on `f64`, which is computed as `x * x`. -/
def powi2 (x : F) : F := mul x x

end F

/-- Error kinds of the module, one per distinct `anyhow!` message of the
source (see the header comment). -/
inductive UtilsError where
  | emptyInput : UtilsError
  | emptyChainSet : UtilsError
  | noDraws : UtilsError
deriving DecidableEq, Repr

/-- Rust `type Array1 = Vec<f64>` of the crate. -/
abbrev Array1 := List F

/-- Rust `type Array2 = Vec<Array1>` of the crate. -/
abbrev Array2 := List Array1

/-- Rust `arr.iter().sum::<f64>()`: left fold of addition starting from zero. -/
def sumF (arr : Array1) : F := arr.foldl F.add (F.fin 0)

/-- Translation of `mean` from `src/utils.rs`: fails on an empty array, otherwise the sum
of all elements divided by the count. -/
def mean (arr : Array1) : Except UtilsError F :=
  if arr.isEmpty then .error .emptyInput
  else .ok (F.div (sumF arr) (F.fin (arr.length : ℚ)))

/-- Translation of `sample_variance` from `src/utils.rs`: delegates the empty check to
`mean`, then divides the sum of squared deviations by `len - 1`. -/
def sample_variance (arr : Array1) : Except UtilsError F :=
  match mean arr with
  | .error e => .error e
  | .ok xbar =>
      .ok (F.div (sumF (arr.map (fun x => F.powi2 (F.sub x xbar))))
        (F.sub (F.fin (arr.length : ℚ)) (F.fin 1)))

/-- Translation of `flatten` from `src/utils.rs`: starts from an empty vector and extends
it with each chain in order. -/
def flatten (chains : Array2) : Array1 :=
  chains.foldl (fun acc chain => acc ++ chain) []

/-- Minimum chain length `chains.iter().map(|c| c.len()).min()` of `split_chains`, with the
`unwrap` defaulted to `0` (the `unwrap` is only reached on a non-empty
chain set, where the default never applies). -/
def numDraws (chains : Array2) : Nat :=
  ((chains.map List.length).min?).getD 0

/-- The `half` of `split_chains`: `num_draws / 2` when `num_draws` is even,
`(num_draws - 1) / 2` when odd. -/
def halfOf (nd : Nat) : Nat :=
  if nd % 2 == 0 then nd / 2 else (nd - 1) / 2

/-- The `offset` of `split_chains`: `0` when `num_draws` is even, `1` when
odd. -/
def offsetOf (nd : Nat) : Nat :=
  if nd % 2 == 0 then 0 else 1

/-- Translation of `split_chains` from `src/utils.rs`: fails on an empty chain set, fails
when the minimum chain length is below one, otherwise emits, for each
chain in order, `chain[..half]` and then `chain[(half + offset)..]`. -/
def split_chains (chains : Array2) : Except UtilsError Array2 :=
  if chains.isEmpty then .error .emptyChainSet
  else
    let nd := numDraws chains
    if nd < 1 then .error .noDraws
    else
      let half := halfOf nd
      let offset := offsetOf nd
      .ok (chains.foldl
        (fun acc chain => acc ++ [chain.take half, chain.drop (half + offset)]) [])

/-- Mathematical reading of the sample-variance formula of the spec, over
exact rationals: the sum of squared deviations from the mean, divided by
`n - 1` (Bessel correction). -/
def specVariance (qs : List ℚ) : ℚ :=
  (qs.map fun q => (q - qs.sum / qs.length) ^ 2).sum / (qs.length - 1)

deriving instance DecidableEq for Except

/-! ### Helper lemmas -/

theorem numDraws_min?_eq (chains : Array2) (h : chains ≠ []) :
    (chains.map List.length).min? = some (numDraws chains) := by
  cases hm : (chains.map List.length).min? with
  | none =>
      rw [List.min?_eq_none_iff, List.map_eq_nil_iff] at hm
      exact absurd hm h
  | some a => simp [numDraws, hm]

theorem numDraws_le (chains : Array2) (c : Array1) (hc : c ∈ chains) :
    numDraws chains ≤ c.length := by
  have hne : chains ≠ [] := List.ne_nil_of_mem hc
  have h := (List.min?_eq_some_iff').mp (numDraws_min?_eq chains hne)
  exact h.2 c.length (List.mem_map_of_mem List.length hc)

theorem numDraws_mem (chains : Array2) (h : chains ≠ []) :
    numDraws chains ∈ chains.map List.length := by
  exact ((List.min?_eq_some_iff').mp (numDraws_min?_eq chains h)).1

theorem numDraws_of_const_length (chains : Array2) (n : Nat) (h : chains ≠ [])
    (hall : ∀ c ∈ chains, c.length = n) : numDraws chains = n := by
  have hmem := numDraws_mem chains h
  rcases List.mem_map.mp hmem with ⟨c, hc, hlen⟩
  rw [← hlen, hall c hc]

theorem two_mul_halfOf_add_offsetOf (nd : Nat) :
    2 * halfOf nd + offsetOf nd = nd := by
  rcases Nat.even_or_odd nd with he | ho
  · have h2 : nd % 2 = 0 := Nat.even_iff.mp he
    simp only [halfOf, offsetOf, h2]
    norm_num
    omega
  · have h2 : nd % 2 = 1 := Nat.odd_iff.mp ho
    simp only [halfOf, offsetOf, h2]
    norm_num
    omega

theorem halfOf_even (nd : Nat) (h : nd % 2 = 0) : halfOf nd = nd / 2 := by
  simp [halfOf, h]

theorem offsetOf_even (nd : Nat) (h : nd % 2 = 0) : offsetOf nd = 0 := by
  simp [offsetOf, h]

theorem halfOf_odd (nd : Nat) (h : nd % 2 = 1) : halfOf nd = (nd - 1) / 2 := by
  simp [halfOf, h]

theorem offsetOf_odd (nd : Nat) (h : nd % 2 = 1) : offsetOf nd = 1 := by
  simp [offsetOf, h]

theorem foldl_push_two (f g : Array1 → Array1) (chains : Array2) (acc : Array2) :
    chains.foldl (fun acc chain => acc ++ [f chain, g chain]) acc
      = acc ++ chains.flatMap (fun chain => [f chain, g chain]) := by
  induction chains generalizing acc with
  | nil => simp
  | cons c rest ih => simp [ih, List.append_assoc]

theorem split_chains_eq_ok (chains : Array2) (h1 : chains ≠ [])
    (h2 : 1 ≤ numDraws chains) :
    split_chains chains
      = .ok (chains.flatMap fun chain =>
          [chain.take (halfOf (numDraws chains)),
           chain.drop (halfOf (numDraws chains) + offsetOf (numDraws chains))]) := by
  unfold split_chains
  rw [if_neg (by simpa [List.isEmpty_iff] using h1)]
  simp only []
  rw [if_neg (by omega)]
  rw [foldl_push_two]
  simp [halfOf, offsetOf]

theorem foldl_append_eq (l : Array2) (acc : Array1) :
    l.foldl (fun a c => a ++ c) acc = acc ++ l.flatten := by
  induction l generalizing acc with
  | nil => simp
  | cons c rest ih => simp [ih, List.append_assoc]

theorem flatten_eq_flatten (chains : Array2) : flatten chains = chains.flatten := by
  simpa using foldl_append_eq chains []

theorem flatten_flatMap_pair (f g : Array1 → Array1) (l : Array2) :
    (l.flatMap fun c => [f c, g c]).flatten = (l.map fun c => f c ++ g c).flatten := by
  induction l with
  | nil => rfl
  | cons c rest ih => simp [ih, List.append_assoc]

theorem getElem?_flatMap_pair (f g : Array1 → Array1) (l : Array2) (i : Nat) :
    (l.flatMap fun c => [f c, g c])[2 * i]? = (l[i]?).map f ∧
    (l.flatMap fun c => [f c, g c])[2 * i + 1]? = (l[i]?).map g := by
  induction l generalizing i with
  | nil => simp
  | cons c rest ih =>
      cases i with
      | zero => simp
      | succ j =>
          have h2 : 2 * (j + 1) = (2 * j + 1) + 1 := by omega
          rw [h2]
          simp only [List.flatMap_cons, List.cons_append, List.getElem?_cons_succ,
            List.getElem?_cons_succ, List.nil_append, List.singleton_append]
          exact ih j

theorem length_flatMap_pair (f g : Array1 → Array1) (l : Array2) :
    (l.flatMap fun c => [f c, g c]).length = 2 * l.length := by
  induction l with
  | nil => rfl
  | cons c rest ih => simp [ih]; omega

theorem mem_flatMap_pair (f g : Array1 → Array1) (l : Array2) (x : Array1)
    (hx : x ∈ l.flatMap fun c => [f c, g c]) :
    ∃ c ∈ l, x = f c ∨ x = g c := by
  rcases List.mem_flatMap.mp hx with ⟨c, hc, hxc⟩
  refine ⟨c, hc, ?_⟩
  simp only [List.mem_cons, List.mem_singleton, List.not_mem_nil, or_false] at hxc
  exact hxc

theorem sumF_map_fin_aux (qs : List ℚ) (q0 : ℚ) :
    (qs.map F.fin).foldl F.add (F.fin q0) = F.fin (q0 + qs.sum) := by
  induction qs generalizing q0 with
  | nil => simp
  | cons q rest ih =>
      simp only [List.map_cons, List.foldl_cons, F.add, List.sum_cons, ih]
      ring_nf

theorem sumF_map_fin (qs : List ℚ) : sumF (qs.map F.fin) = F.fin qs.sum := by
  simpa using sumF_map_fin_aux qs 0

theorem div_fin_fin (a b : ℚ) (hb : b ≠ 0) :
    F.div (F.fin a) (F.fin b) = F.fin (a / b) := by
  simp [F.div, hb]

theorem sub_fin_fin (a b : ℚ) : F.sub (F.fin a) (F.fin b) = F.fin (a - b) := by
  simp [F.sub, F.add, F.neg, sub_eq_add_neg]

theorem mean_map_fin (qs : List ℚ) (h : qs ≠ []) :
    mean (qs.map F.fin) = .ok (F.fin (qs.sum / qs.length)) := by
  have hne : (qs.map F.fin) ≠ [] := by simpa using h
  have hlen : ((qs.map F.fin).length : ℚ) = (qs.length : ℚ) := by simp
  have hq : ((qs.length : ℚ)) ≠ 0 := by
    have : qs.length ≠ 0 := fun h0 => h (List.eq_nil_of_length_eq_zero h0)
    exact_mod_cast this
  rw [mean, if_neg (by simpa [List.isEmpty_iff] using hne), sumF_map_fin, hlen,
    div_fin_fin _ _ hq]

theorem split_chains_ok_inv (chains out : Array2)
    (h : split_chains chains = .ok out) :
    chains ≠ [] ∧ 1 ≤ numDraws chains ∧
    out = chains.flatMap fun c =>
      [c.take (halfOf (numDraws chains)),
       c.drop (halfOf (numDraws chains) + offsetOf (numDraws chains))] := by
  by_cases h1 : chains = []
  · subst h1; simp [split_chains] at h
  · by_cases h2 : numDraws chains < 1
    · unfold split_chains at h
      rw [if_neg (by simpa [List.isEmpty_iff] using h1)] at h
      simp only [h2, if_pos] at h
      simp at h
    · have heq := split_chains_eq_ok chains h1 (by omega)
      rw [heq] at h
      injection h with h
      exact ⟨h1, by omega, h.symm⟩

/-! ### Claim theorems -/

/-- Claim C1: `split_chains` fails with `EmptyChainSet` exactly when the
chain set has zero chains, fails with `NoDraws` exactly when it has at
least one chain whose minimum chain length is below one, and succeeds
otherwise (the checks precede any output: on either failure no output
value exists at all). -/
theorem split_chains_failure_spec (chains : Array2) :
    (split_chains chains = .error .emptyChainSet ↔ chains = []) ∧
    (split_chains chains = .error .noDraws ↔ chains ≠ [] ∧ numDraws chains < 1) ∧
    ((∃ out, split_chains chains = .ok out) ↔ chains ≠ [] ∧ 1 ≤ numDraws chains) := by
  by_cases h1 : chains = []
  · subst h1
    refine ⟨by simp [split_chains], by simp [split_chains], by simp [split_chains]⟩
  · by_cases h2 : numDraws chains < 1
    · have herr : split_chains chains = .error .noDraws := by
        unfold split_chains
        rw [if_neg (by simpa [List.isEmpty_iff] using h1)]
        simp only [h2, if_pos]
      refine ⟨by simp [herr, h1], by simp [herr, h1, h2], by simp [herr, h2]⟩
    · have heq := split_chains_eq_ok chains h1 (by omega)
      refine ⟨by simp [heq, h1], by simp [heq, h2], ?_⟩
      simp only [heq, Except.ok.injEq, exists_eq', true_iff]
      exact ⟨h1, by omega⟩

/-- Witness for claim C1 at concrete inputs: the three failure and success
modes are each realized. -/
theorem split_chains_failure_spec_witness :
    split_chains [] = .error .emptyChainSet ∧
    split_chains [[F.fin 1], [], []] = .error .noDraws ∧
    (∃ out, split_chains [[F.fin 1]] = .ok out) := by
  refine ⟨(split_chains_failure_spec []).1.mpr rfl,
    (split_chains_failure_spec [[F.fin 1], [], []]).2.1.mpr ⟨by decide, by decide⟩,
    (split_chains_failure_spec [[F.fin 1]]).2.2.mpr ⟨by decide, by decide⟩⟩

/-- Claim C2 counterexample: the chain set `[[]]` has minimum chain length
`0`, which is even, yet `split_chains` emits no output chains at all -- it
fails with `NoDraws` -- refuting the unconditional assertion that every
chain set with even minimum chain length yields twice as many output
chains. -/
theorem split_chains_even_counterexample :
    numDraws [([] : Array1)] % 2 = 0 ∧
    split_chains [([] : Array1)] = .error .noDraws ∧
    ∀ out : Array2, ¬ (split_chains [([] : Array1)] = .ok out ∧
        out.length = 2 * ([([] : Array1)] : Array2).length) := by
  refine ⟨by decide, by decide, ?_⟩
  rintro out ⟨hok, -⟩
  rw [show split_chains [([] : Array1)] = .error .noDraws by decide] at hok
  cases hok

/-- Claim C2 (amended): for every chain set with at least one chain whose
minimum chain length `num_draws` is even and positive, `split_chains`
uses `half = num_draws / 2` with offset zero and, for each input chain in
input order, emits `chain[0:half]` followed by `chain[half:end]`,
producing twice as many output chains as input chains in interleaved
first-half/second-half order; for equal-length chains of even length `n`
every output half-chain has length exactly `n / 2`. -/
theorem split_chains_even_spec (chains : Array2) (h1 : chains ≠ [])
    (h2 : numDraws chains % 2 = 0) (h3 : 1 ≤ numDraws chains) :
    split_chains chains
      = .ok (chains.flatMap fun c =>
          [c.take (numDraws chains / 2), c.drop (numDraws chains / 2)]) ∧
    (∀ out, split_chains chains = .ok out → out.length = 2 * chains.length) ∧
    (∀ n, (∀ c ∈ chains, c.length = n) →
      ∀ out, split_chains chains = .ok out →
        ∀ hc ∈ out, hc.length = n / 2) := by
  have hhalf := halfOf_even _ h2
  have hoff := offsetOf_even _ h2
  have heq := split_chains_eq_ok chains h1 h3
  rw [hhalf, hoff] at heq
  simp only [Nat.add_zero] at heq
  refine ⟨heq, ?_, ?_⟩
  · intro out hout
    rw [heq] at hout
    injection hout with hout
    rw [← hout]
    exact length_flatMap_pair _ _ chains
  · intro n hall out hout hc hmem
    rw [heq] at hout
    injection hout with hout
    rw [← hout] at hmem
    have hnd : numDraws chains = n := numDraws_of_const_length chains n h1 hall
    rcases mem_flatMap_pair _ _ chains hc hmem with ⟨c, hcmem, hcase⟩
    have hclen : c.length = n := hall c hcmem
    have hn2 : n % 2 = 0 := by rw [← hnd]; exact h2
    rcases hcase with rfl | rfl
    · rw [List.length_take, hnd, hclen]
      omega
    · rw [List.length_drop, hnd, hclen]
      omega

/-- Witness for claim C2 (amended) at the spec test vector
`[[1,2,3,4],[5,6,7,8]]`, checking the interleaved output and the output
count. -/
theorem split_chains_even_spec_witness :
    split_chains [[F.fin 1, F.fin 2, F.fin 3, F.fin 4],
        [F.fin 5, F.fin 6, F.fin 7, F.fin 8]]
      = .ok [[F.fin 1, F.fin 2], [F.fin 3, F.fin 4],
          [F.fin 5, F.fin 6], [F.fin 7, F.fin 8]] ∧
    ∀ out, split_chains [[F.fin 1, F.fin 2, F.fin 3, F.fin 4],
        [F.fin 5, F.fin 6, F.fin 7, F.fin 8]] = .ok out → out.length = 4 := by
  have h := split_chains_even_spec
    [[F.fin 1, F.fin 2, F.fin 3, F.fin 4], [F.fin 5, F.fin 6, F.fin 7, F.fin 8]]
    (by decide) (by decide) (by decide)
  refine ⟨?_, fun out hout => h.2.1 out hout⟩
  rw [h.1]
  rfl

/-- Claim C3: for every chain set whose minimum chain length `num_draws`
is odd, `split_chains` uses `half = (num_draws - 1) / 2` with offset one,
so the draw at index `half` is dropped from both halves of every chain:
each chain emits `chain[0:half]` and then `chain[half+1:end]`, and their
concatenation is the chain with the draw at index `half` erased. -/
theorem split_chains_odd_spec (chains : Array2) (h1 : chains ≠ [])
    (h2 : numDraws chains % 2 = 1) :
    split_chains chains
      = .ok (chains.flatMap fun c =>
          [c.take ((numDraws chains - 1) / 2),
           c.drop ((numDraws chains - 1) / 2 + 1)]) ∧
    (∀ c ∈ chains,
      c.take ((numDraws chains - 1) / 2) ++ c.drop ((numDraws chains - 1) / 2 + 1)
        = c.eraseIdx ((numDraws chains - 1) / 2)) := by
  have hhalf := halfOf_odd _ h2
  have hoff := offsetOf_odd _ h2
  have heq := split_chains_eq_ok chains h1 (by omega)
  rw [hhalf, hoff] at heq
  exact ⟨heq, fun c _ => (List.eraseIdx_eq_take_drop_succ c _).symm⟩

/-- Witness for claim C3 at the spec test vector with chains of odd length
five: the middle draw of each chain is dropped. -/
theorem split_chains_odd_spec_witness :
    split_chains [[F.fin 1, F.fin 2, F.fin 3, F.fin 4, F.fin 5],
        [F.fin 6, F.fin 7, F.fin 8, F.fin 9, F.fin 10]]
      = .ok [[F.fin 1, F.fin 2], [F.fin 4, F.fin 5],
          [F.fin 6, F.fin 7], [F.fin 9, F.fin 10]] := by
  have h := split_chains_odd_spec
    [[F.fin 1, F.fin 2, F.fin 3, F.fin 4, F.fin 5],
     [F.fin 6, F.fin 7, F.fin 8, F.fin 9, F.fin 10]]
    (by decide) (by decide)
  rw [h.1]
  rfl

/-- Claim C4: `split_chains` derives `half` and `offset` only from the
minimum chain length and does not truncate the second half of longer
chains: for every chain of a successfully split chain set, the emitted
second half is `chain[half+offset:end]`, its length is
`len(chain) - half - offset`, and it exceeds `half` for any chain longer
than the minimum length. -/
theorem split_chains_no_truncate_spec (chains : Array2) (h1 : chains ≠ [])
    (h3 : 1 ≤ numDraws chains) :
    split_chains chains
      = .ok (chains.flatMap fun c =>
          [c.take (halfOf (numDraws chains)),
           c.drop (halfOf (numDraws chains) + offsetOf (numDraws chains))]) ∧
    (∀ c ∈ chains,
      (c.drop (halfOf (numDraws chains) + offsetOf (numDraws chains))).length
        = c.length - halfOf (numDraws chains) - offsetOf (numDraws chains)) ∧
    (∀ c ∈ chains, numDraws chains < c.length →
      halfOf (numDraws chains)
        < (c.drop (halfOf (numDraws chains) + offsetOf (numDraws chains))).length) := by
  refine ⟨split_chains_eq_ok chains h1 h3, ?_, ?_⟩
  · intro c _
    rw [List.length_drop]
    omega
  · intro c _ hlong
    rw [List.length_drop]
    have hrel := two_mul_halfOf_add_offsetOf (numDraws chains)
    omega

/-- Witness for claim C4 on a chain set with unequal chain lengths: the
minimum length is four, and the longer chain of length six keeps a second
half of length four, exceeding `half = 2`. -/
theorem split_chains_no_truncate_spec_witness :
    split_chains [[F.fin 1, F.fin 2, F.fin 3, F.fin 4],
        [F.fin 5, F.fin 6, F.fin 7, F.fin 8, F.fin 9, F.fin 10]]
      = .ok [[F.fin 1, F.fin 2], [F.fin 3, F.fin 4],
          [F.fin 5, F.fin 6], [F.fin 7, F.fin 8, F.fin 9, F.fin 10]] ∧
    ([F.fin 7, F.fin 8, F.fin 9, F.fin 10] : Array1).length = 6 - 2 - 0 := by
  have h := split_chains_no_truncate_spec
    [[F.fin 1, F.fin 2, F.fin 3, F.fin 4],
     [F.fin 5, F.fin 6, F.fin 7, F.fin 8, F.fin 9, F.fin 10]]
    (by decide) (by decide)
  refine ⟨?_, by decide⟩
  rw [h.1]
  rfl

/-- Claim C10: for every non-empty chain set whose minimum chain length is
exactly one, `split_chains` succeeds, every emitted first half is the
empty chain and every emitted second half is `chain[1:end]`; in
particular `split_chains [[x]]` returns `[[], []]` for every draw `x`. -/
theorem split_chains_min_one_spec (chains : Array2) (h1 : chains ≠ [])
    (h2 : numDraws chains = 1) :
    split_chains chains
      = .ok (chains.flatMap fun c => [([] : Array1), c.drop 1]) ∧
    (∀ x : F, split_chains [[x]] = .ok [[], []]) := by
  have heq := split_chains_eq_ok chains h1 (by omega)
  rw [h2] at heq
  have hh : halfOf 1 = 0 := by decide
  have ho : offsetOf 1 = 1 := by decide
  rw [hh, ho] at heq
  simp only [List.take_zero, Nat.zero_add] at heq
  refine ⟨heq, ?_⟩
  intro x
  have h1x : ([[x]] : Array2) ≠ [] := by simp
  have h2x : numDraws [[x]] = 1 := rfl
  have hx := split_chains_eq_ok [[x]] h1x (by rw [h2x])
  rw [h2x, hh, ho] at hx
  simpa using hx

/-- Witness for claim C10 at the singleton chain set `[[2]]` and at a
two-chain set of minimum length one. -/
theorem split_chains_min_one_spec_witness :
    split_chains [[F.fin 2]] = .ok [[], []] ∧
    split_chains [[F.fin 3], [F.fin 4, F.fin 5]]
      = .ok [[], [], [], [F.fin 5]] := by
  constructor
  · exact (split_chains_min_one_spec [[F.fin 2]] (by decide) (by decide)).2 (F.fin 2)
  · have h := split_chains_min_one_spec [[F.fin 3], [F.fin 4, F.fin 5]]
      (by decide) (by decide)
    rw [h.1]
    rfl

/-- Claim C9: round trip through the splitter. Whenever `split_chains`
succeeds, output chains `2i` and `2i+1` concatenate to input chain `i`
with the segment from `half` to `half + offset` removed: the whole chain
when the minimum chain length is even, the chain minus the draw at index
`half` when it is odd; flattening the re-paired output equals flattening
the inputs so truncated. -/
theorem split_chains_roundtrip_spec (chains out : Array2)
    (h : split_chains chains = .ok out) :
    (∀ i, i < chains.length →
      ∃ a b, out[2 * i]? = some a ∧ out[2 * i + 1]? = some b ∧
        a ++ b = (chains[i]?.getD []).take (halfOf (numDraws chains))
            ++ (chains[i]?.getD []).drop
                (halfOf (numDraws chains) + offsetOf (numDraws chains)) ∧
        (numDraws chains % 2 = 0 → a ++ b = chains[i]?.getD []) ∧
        (numDraws chains % 2 = 1 →
          a ++ b = (chains[i]?.getD []).eraseIdx (halfOf (numDraws chains)))) ∧
    flatten out
      = flatten (chains.map fun c =>
          c.take (halfOf (numDraws chains))
            ++ c.drop (halfOf (numDraws chains) + offsetOf (numDraws chains))) := by
  obtain ⟨h1, h3, hout⟩ := split_chains_ok_inv chains out h
  subst hout
  constructor
  · intro i hi
    obtain ⟨c, hc⟩ : ∃ c, chains[i]? = some c :=
      ⟨chains[i], List.getElem?_eq_getElem hi⟩
    have hpair := getElem?_flatMap_pair
      (fun c => c.take (halfOf (numDraws chains)))
      (fun c => c.drop (halfOf (numDraws chains) + offsetOf (numDraws chains)))
      chains i
    refine ⟨c.take (halfOf (numDraws chains)),
      c.drop (halfOf (numDraws chains) + offsetOf (numDraws chains)),
      by rw [hpair.1, hc]; rfl, by rw [hpair.2, hc]; rfl, by rw [hc]; rfl, ?_, ?_⟩
    · intro hev
      rw [hc, offsetOf_even _ hev]
      simp
    · intro hod
      rw [hc, offsetOf_odd _ hod]
      exact (List.eraseIdx_eq_take_drop_succ c _).symm
  · rw [flatten_eq_flatten, flatten_eq_flatten]
    exact flatten_flatMap_pair _ _ chains

/-- Witness for claim C9 at the odd-length chain set `[[1,2,3]]`: the
output `[[1],[3]]` flattens to the input with its middle draw removed. -/
theorem split_chains_roundtrip_spec_witness :
    flatten [[F.fin 1], [F.fin 3]]
      = flatten (([[F.fin 1, F.fin 2, F.fin 3]] : Array2).map fun c =>
          c.take (halfOf (numDraws [[F.fin 1, F.fin 2, F.fin 3]]))
            ++ c.drop (halfOf (numDraws [[F.fin 1, F.fin 2, F.fin 3]])
                + offsetOf (numDraws [[F.fin 1, F.fin 2, F.fin 3]]))) :=
  (split_chains_roundtrip_spec [[F.fin 1, F.fin 2, F.fin 3]]
    [[F.fin 1], [F.fin 3]] (by decide)).2

/-- Claim C8: `flatten` never fails (it is a total function) and returns
the concatenation of every chain in chain order, then draw order within
each chain; it returns the empty sequence on no chains or on all-empty
chains. -/
theorem flatten_spec (chains : Array2) :
    flatten chains = chains.flatten ∧
    flatten ([] : Array2) = [] ∧
    ((∀ c ∈ chains, c = []) → flatten chains = []) := by
  refine ⟨flatten_eq_flatten chains, rfl, ?_⟩
  intro hall
  rw [flatten_eq_flatten]
  exact List.flatten_eq_nil_iff.mpr hall

/-- Witness for claim C8 at the spec test vector and at an all-empty chain
set. -/
theorem flatten_spec_witness :
    flatten [[F.fin 1, F.fin 2, F.fin 3, F.fin 4],
        [F.fin 5, F.fin 6, F.fin 7, F.fin 8]]
      = [F.fin 1, F.fin 2, F.fin 3, F.fin 4,
         F.fin 5, F.fin 6, F.fin 7, F.fin 8] ∧
    flatten [[], []] = [] := by
  constructor
  · rw [(flatten_spec [[F.fin 1, F.fin 2, F.fin 3, F.fin 4],
        [F.fin 5, F.fin 6, F.fin 7, F.fin 8]]).1]
    rfl
  · exact (flatten_spec [[], []]).2.2 (by decide)

theorem mean_singleton (x : F) : mean [x] = .ok x := by
  cases x with
  | fin q => simp [mean, sumF, F.add, F.div]
  | inf s =>
      have hd : decide ((0 : ℚ) ≤ 1) = true := by decide
      simp [mean, sumF, F.add, F.div, hd]
  | nan => simp [mean, sumF, F.add, F.div]

/-- Claim C5: `mean` fails with `EmptyInput` exactly on the empty
sequence; on a non-empty sequence it returns the sum of all elements
divided by the element count (stated both over the raw fold of the code
and, for finite draws, as the exact rational `sum / length`); and
`mean [x]` returns `x` for every draw `x`. -/
theorem mean_spec (arr : Array1) (qs : List ℚ) :
    (mean arr = .error .emptyInput ↔ arr = []) ∧
    (arr ≠ [] → mean arr = .ok (F.div (sumF arr) (F.fin (arr.length : ℚ)))) ∧
    (qs ≠ [] → mean (qs.map F.fin) = .ok (F.fin (qs.sum / qs.length))) ∧
    (∀ x : F, mean [x] = .ok x) := by
  refine ⟨⟨?_, ?_⟩, ?_, fun h => mean_map_fin qs h, fun x => mean_singleton x⟩
  · intro h
    by_contra hne
    rw [mean, if_neg (by simpa [List.isEmpty_iff] using hne)] at h
    cases h
  · intro h
    subst h
    rfl
  · intro h
    rw [mean, if_neg (by simpa [List.isEmpty_iff] using h)]

/-- Witness for claim C5: the empty failure, the exact value at `[1, 3]`,
and the singleton law at a non-finite draw. -/
theorem mean_spec_witness :
    mean [] = .error .emptyInput ∧
    mean (List.map F.fin [1, 3]) = .ok (F.fin 2) ∧
    mean [F.nan] = .ok F.nan := by
  refine ⟨(mean_spec [] [1]).1.mpr rfl, ?_, (mean_spec [] [1]).2.2.2 F.nan⟩
  have h := (mean_spec [] [1, 3]).2.2.1 (by simp)
  rw [h]
  norm_num

theorem mean_error_iff (arr : Array1) :
    mean arr = .error .emptyInput ↔ arr = [] := by
  constructor
  · intro h
    by_contra hne
    rw [mean, if_neg (by simpa [List.isEmpty_iff] using hne)] at h
    cases h
  · intro h
    subst h
    rfl

theorem sample_variance_delegates (arr : Array1) (e : UtilsError) :
    sample_variance arr = .error e ↔ mean arr = .error e := by
  cases hm : mean arr with
  | error e2 => simp [sample_variance, hm]
  | ok v => simp [sample_variance, hm]

theorem sample_variance_map_fin (qs : List ℚ) (h2 : 2 ≤ qs.length) :
    sample_variance (qs.map F.fin) = .ok (F.fin (specVariance qs)) := by
  have hne : qs ≠ [] := by
    intro h
    subst h
    simp at h2
  have hm := mean_map_fin qs hne
  simp only [sample_variance, hm]
  rw [List.map_map]
  have hfun : (fun x => F.powi2 (F.sub x (F.fin (qs.sum / qs.length)))) ∘ F.fin
      = F.fin ∘ (fun q => (q - qs.sum / qs.length) * (q - qs.sum / qs.length)) := by
    funext q
    simp [Function.comp, F.powi2, F.mul, sub_fin_fin]
  rw [hfun, ← List.map_map, sumF_map_fin, List.length_map, sub_fin_fin]
  have hne1 : ((qs.length : ℚ) - 1) ≠ 0 := by
    have hcast : (2 : ℚ) ≤ (qs.length : ℚ) := by exact_mod_cast h2
    intro h0
    rw [sub_eq_zero] at h0
    rw [h0] at hcast
    norm_num at hcast
  rw [div_fin_fin _ _ hne1]
  simp only [specVariance, pow_two]

/-- Claim C6: `sample_variance` fails with the same `EmptyInput` error as
`mean` exactly when the input is empty (the check is delegated to `mean`:
it fails with an error if and only if `mean` fails with that error), and
on finite inputs of at least two elements it returns the Bessel-corrected
sample variance, the sum of squared deviations from the mean divided by
`n - 1`. -/
theorem sample_variance_spec (arr : Array1) (qs : List ℚ) :
    (sample_variance arr = .error .emptyInput ↔ arr = []) ∧
    (∀ e, sample_variance arr = .error e ↔ mean arr = .error e) ∧
    (2 ≤ qs.length →
      sample_variance (qs.map F.fin) = .ok (F.fin (specVariance qs))) :=
  ⟨(sample_variance_delegates arr .emptyInput).trans (mean_error_iff arr),
   fun e => sample_variance_delegates arr e,
   fun h2 => sample_variance_map_fin qs h2⟩

/-- Witness for claim C6: the empty failure and the exact variance of
`[1, 3]`, which is `2`. -/
theorem sample_variance_spec_witness :
    sample_variance [] = .error .emptyInput ∧
    sample_variance (List.map F.fin [1, 3]) = .ok (F.fin 2) := by
  refine ⟨(sample_variance_spec [] [1]).1.mpr rfl, ?_⟩
  have h := (sample_variance_spec [] [1, 3]).2.2 (by simp)
  rw [h]
  norm_num [specVariance]

/-- Claim C7: `sample_variance` on a one-element input does not fail: it
returns a non-error result whose value is positive infinity or NaN under
the IEEE-754 division rules (the divisor `n - 1` is zero); here the sum
of squared deviations is also zero (or itself NaN), so the result is NaN. -/
theorem sample_variance_singleton_spec (x : F) :
    ∃ v, sample_variance [x] = .ok v ∧ (v = F.inf true ∨ v = F.nan) := by
  refine ⟨F.nan, ?_, Or.inr rfl⟩
  have hm := mean_singleton x
  simp only [sample_variance, hm]
  cases x with
  | fin q => simp [F.sub, F.neg, F.add, F.powi2, F.mul, F.div, sumF]
  | inf s => simp [F.sub, F.neg, F.add, F.powi2, F.mul, F.div, sumF]
  | nan => simp [F.sub, F.neg, F.add, F.powi2, F.mul, F.div, sumF]
